import Mathlib

/-!
Verification of the STREL formula AST and the interval-elimination rewriter
(`expand_intervals`) from `src/automatix/logic/strel.py`.

Modelling conventions:
* Python `int` is modelled as `Int`, `Optional[T]` as `Option T`.
* Python dataclass construction runs `__post_init__`, which can raise
  (`ValueError` / `AssertionError`) or normalize fields in place.  Each class
  is modelled as a plain structure/inductive constructor together with a
  `mk...` function that performs exactly the `__post_init__` checks and
  normalizations; failure is an `Except.error` carrying the message.
* Python `float` values reaching `DistanceInterval` are only ever compared
  (`<`, `>=`) and defaulted to `0.0` / `math.inf`; they are modelled exactly
  by rationals extended with an infinity point (`Fl`).
* `expand_intervals` is recursive but not structurally so (the `Until` and
  `Globally` rules re-invoke the expander on freshly built formulas), so it
  is embedded as a fuel-guarded function `expandF`; `expandF_isSome` proves
  that some finite fuel always suffices, and `expandIntervals` is the
  resulting total function.
-/

namespace Strel

/-- Model of class `TimeInterval` (fields `start`, `end`; `end` is a Lean
keyword, rendered `stop`). -/
structure TimeInterval where
  start : Option Int
  stop : Option Int
deriving DecidableEq, Repr

/-- Model of `TimeInterval.__post_init__`: with both bounds present, rejects point
intervals, reversed bounds and negative bounds (in that order); any other
shape is accepted unchecked. -/
def mkTimeInterval (start stop : Option Int) : Except String TimeInterval :=
  match start, stop with
  | some t1, some t2 =>
    if t1 = t2 then .error "Time intervals cannot be point values [a,a]"
    else if t1 > t2 then .error "Time interval [a,b] cannot have a > b"
    else if t1 < 0 ∨ t2 < 0 then .error "Time interval cannot have negative bounds"
    else .ok ⟨some t1, some t2⟩
  | s, e => .ok ⟨s, e⟩

/-- Model of `TimeInterval.is_unbounded`: the end is `None` (or infinite; an `int`
end is never infinite). -/
def TimeInterval.is_unbounded : TimeInterval → Bool
  | ⟨_, none⟩ => true
  | ⟨_, some _⟩ => false

/-- Model of `TimeInterval.__iter__`, as the value produced by the n-th call
to `next()` (`none` = the iterator is exhausted at that point):
`(int start, None)` is `itertools.count(start)`; `(None, int end)` is
`range(0, end + 1)`; `(int start, int end)` is `range(start, end + 1)`;
the remaining `(None, None)` shape falls through to `iter([])`. -/
def TimeInterval.iterAt : TimeInterval → Nat → Option Int
  | ⟨some s, none⟩, n => some (s + n)
  | ⟨none, some e⟩, n => if (n : Int) ≤ e then some n else none
  | ⟨some s, some e⟩, n => if s + n ≤ e then some (s + n) else none
  | ⟨none, none⟩, _ => none

/-- Python float values used by `DistanceInterval`: a finite value (exact,
since the code only defaults and compares them) or `math.inf`. -/
inductive Fl where
  | fin (q : ℚ)
  | inf
deriving DecidableEq, Repr

/-- Float `<`. -/
def Fl.lt : Fl → Fl → Bool
  | .fin a, .fin b => a < b
  | .fin _, .inf => true
  | .inf, _ => false

/-- Float `<=`. -/
def Fl.le : Fl → Fl → Bool
  | .fin a, .fin b => a ≤ b
  | .fin _, .inf => true
  | .inf, .inf => true
  | .inf, .fin _ => false

/-- Model of class `DistanceInterval`; after `__post_init__` both fields
always hold actual floats, never `None`. -/
structure DistanceInterval where
  start : Fl
  stop : Fl
deriving DecidableEq, Repr

/-- Model of `DistanceInterval.__post_init__`: a missing `start` becomes `0.0`, a
missing `end` becomes `math.inf`; then negative bounds are rejected, then
`start >= end` is rejected. -/
def mkDistanceInterval (start stop : Option Fl) : Except String DistanceInterval :=
  let s := start.getD (Fl.fin 0)
  let e := stop.getD Fl.inf
  if s.lt (Fl.fin 0) ∨ e.lt (Fl.fin 0) then .error "Distane cannot be less than 0"
  else if e.le s then .error "Distance interval cannot have `start` >= `end`"
  else .ok ⟨s, e⟩

/-- The `Expr` AST: one constructor per dataclass, fields in source order. -/
inductive Expr where
  | Constant (value : Bool)
  | Identifier (name : String)
  | NotOp (arg : Expr)
  | AndOp (lhs rhs : Expr)
  | OrOp (lhs rhs : Expr)
  | EverywhereOp (interval : DistanceInterval) (arg : Expr)
  | SomewhereOp (interval : DistanceInterval) (arg : Expr)
  | EscapeOp (interval : DistanceInterval) (arg : Expr)
  | ReachOp (lhs : Expr) (interval : DistanceInterval) (rhs : Expr)
  | NextOp (steps : Option Int) (arg : Expr)
  | GloballyOp (interval : Option TimeInterval) (arg : Expr)
  | EventuallyOp (interval : Option TimeInterval) (arg : Expr)
  | UntilOp (lhs : Expr) (interval : Option TimeInterval) (rhs : Expr)
deriving DecidableEq, Repr

/-- Model of `NextOp.__post_init__`: non-positive steps are rejected; `steps == 1` is
collapsed to the canonical `None` single-step marker. -/
def mkNextOp (steps : Option Int) (arg : Expr) : Except String Expr :=
  match steps with
  | some t =>
    if t ≤ 0 then .error "Next operator cannot have non-positive steps"
    else if t = 1 then .ok (.NextOp none arg)
    else .ok (.NextOp (some t) arg)
  | none => .ok (.NextOp none arg)

/-- The interval collapse shared by the `__post_init__` of `GloballyOp`,
`EventuallyOp` and `UntilOp`: `None`, `[None, None]` and `[0, None]` all
become `None` (fully unbounded). -/
def collapseTemporal : Option TimeInterval → Option TimeInterval
  | none => none
  | some ⟨none, none⟩ => none
  | some ⟨some t, none⟩ => if t = 0 then none else some ⟨some t, none⟩
  | some i => some i

/-- Model of `GloballyOp.__post_init__` (collapse only, never fails). -/
def mkGloballyOp (interval : Option TimeInterval) (arg : Expr) : Expr :=
  .GloballyOp (collapseTemporal interval) arg

/-- Model of `EventuallyOp.__post_init__` (collapse only, never fails). -/
def mkEventuallyOp (interval : Option TimeInterval) (arg : Expr) : Expr :=
  .EventuallyOp (collapseTemporal interval) arg

/-- Model of `UntilOp.__post_init__` (collapse only, never fails). -/
def mkUntilOp (lhs : Expr) (interval : Option TimeInterval) (rhs : Expr) : Expr :=
  .UntilOp lhs (collapseTemporal interval) rhs

/-- The unrolling loop of `NextOp.expand_intervals`: `expr` starts at the
expanded argument and is wrapped in a single-step `NextOp` once per loop
iteration (`range(t)` is empty for `t <= 0`, hence `Int.toNat`). -/
def wrapNext : Nat → Expr → Expr
  | 0, a => a
  | k + 1, a => .NextOp none (wrapNext k a)

/-- The unrolling loop of the upper-bounded `EventuallyOp.expand_intervals`
case: `expr = arg`, then `t2` times `expr = OrOp(expr, NextOp(None, arg))`.
(Note the source appends the same single-step `NextOp(None, arg)` disjunct
each iteration.) -/
def orUnroll (a : Expr) : Nat → Expr
  | 0 => a
  | k + 1 => .OrOp (orUnroll a k) (.NextOp none a)

/-- Does a `NotOp` node head the expression (`isinstance(arg, NotOp)`)? -/
def Expr.isNotNode : Expr → Bool
  | .NotOp _ => true
  | _ => false

/-- Is a `GloballyOp` node present anywhere in the tree? -/
def hasGloballyOp : Expr → Bool
  | .Constant _ => false
  | .Identifier _ => false
  | .NotOp a => hasGloballyOp a
  | .AndOp l r => hasGloballyOp l || hasGloballyOp r
  | .OrOp l r => hasGloballyOp l || hasGloballyOp r
  | .EverywhereOp _ a => hasGloballyOp a
  | .SomewhereOp _ a => hasGloballyOp a
  | .EscapeOp _ a => hasGloballyOp a
  | .ReachOp l _ r => hasGloballyOp l || hasGloballyOp r
  | .NextOp _ a => hasGloballyOp a
  | .GloballyOp _ _ => true
  | .EventuallyOp _ a => hasGloballyOp a
  | .UntilOp l _ r => hasGloballyOp l || hasGloballyOp r

/-- Atomic expressions: `Constant` or `Identifier`. -/
def isAtomic : Expr → Bool
  | .Constant _ => true
  | .Identifier _ => true
  | _ => false

/-- Sequencing an intermediate result of the expander: `none` (out of fuel)
and raised errors both propagate, as Python exceptions do. -/
def bindRes (x : Option (Except String Expr)) (f : Expr → Option (Except String Expr)) :
    Option (Except String Expr) :=
  match x with
  | none => none
  | some (.error s) => some (.error s)
  | some (.ok a) => f a

/-- Sequencing a constructor call that may raise inside the expander. -/
def bindExc (x : Except String α) (f : α → Option (Except String Expr)) :
    Option (Except String Expr) :=
  match x with
  | .error s => some (.error s)
  | .ok a => f a

/-- Model of `Expr.expand_intervals` and its overrides, with an explicit fuel that is
spent once per (method-)call; `none` means the fuel ran out.  Branches mirror
the source per class:

* default (`Expr.expand_intervals`, used by `Constant`, `Identifier` and
  `AndOp`, which do not override it): return `self`;
* `NotOp`: expand the argument; if the result is itself a `NotOp` return it,
  else re-wrap in `NotOp`;
* `OrOp`, the spatial operators: structural recursion, interval kept;
* `NextOp`: expand the argument, then `None` stays a single step while
  `steps = t` wraps the result in `t` single-step `NextOp`s;
* `GloballyOp`: duality, `NotOp(EventuallyOp(interval, NotOp(arg)))`
  expanded;
* `EventuallyOp` / `UntilOp`: the interval match of the source, with the
  ordered Python patterns `TimeInterval(0, ...)` rendered as an explicit
  `if t1 = 0` on the already-matched integer bound, and the
  `assert t1 > 0` rendered as an error on its failure. -/
def expandF : Nat → Expr → Option (Except String Expr)
  | 0, _ => none
  | n + 1, e =>
    match e with
    | .Constant b => some (.ok (.Constant b))
    | .Identifier s => some (.ok (.Identifier s))
    | .AndOp l r => some (.ok (.AndOp l r))
    | .NotOp a =>
      bindRes (expandF n a) fun a2 =>
        if a2.isNotNode then some (.ok a2) else some (.ok (.NotOp a2))
    | .OrOp l r =>
      bindRes (expandF n l) fun l2 =>
        bindRes (expandF n r) fun r2 => some (.ok (.OrOp l2 r2))
    | .EverywhereOp i a =>
      bindRes (expandF n a) fun a2 => some (.ok (.EverywhereOp i a2))
    | .SomewhereOp i a =>
      bindRes (expandF n a) fun a2 => some (.ok (.SomewhereOp i a2))
    | .EscapeOp i a =>
      bindRes (expandF n a) fun a2 => some (.ok (.EscapeOp i a2))
    | .ReachOp l i r =>
      bindRes (expandF n l) fun l2 =>
        bindRes (expandF n r) fun r2 => some (.ok (.ReachOp l2 i r2))
    | .NextOp steps a =>
      bindRes (expandF n a) fun a2 =>
        match steps with
        | none => some (.ok (.NextOp none a2))
        | some t => some (.ok (wrapNext t.toNat a2))
    | .GloballyOp i a =>
      expandF n (.NotOp (mkEventuallyOp i (.NotOp a)))
    | .EventuallyOp i a =>
      match i with
      | none =>
        bindRes (expandF n a) fun a2 => some (.ok (mkEventuallyOp none a2))
      | some ⟨none, none⟩ =>
        bindRes (expandF n a) fun a2 => some (.ok (mkEventuallyOp none a2))
      | some ⟨none, some t2⟩ =>
        bindRes (expandF n a) fun a2 => some (.ok (orUnroll a2 t2.toNat))
      | some ⟨some t1, none⟩ =>
        if t1 = 0 then
          bindRes (expandF n a) fun a2 => some (.ok (mkEventuallyOp none a2))
        else if t1 ≤ 0 then some (.error "AssertionError: t1 > 0")
        else
          bindExc (mkNextOp (some t1) (mkEventuallyOp none a)) fun x =>
            expandF n x
      | some ⟨some t1, some t2⟩ =>
        if t1 = 0 then
          bindRes (expandF n a) fun a2 => some (.ok (orUnroll a2 t2.toNat))
        else if t1 ≤ 0 then some (.error "AssertionError: t1 > 0")
        else
          bindExc (mkTimeInterval (some 0) (some (t2 - t1))) fun iv =>
            bindExc (mkNextOp (some t1) (mkEventuallyOp (some iv) a)) fun x =>
              expandF n x
    | .UntilOp lhs i rhs =>
      bindRes (expandF n lhs) fun nl =>
        bindRes (expandF n rhs) fun nr =>
          match i with
          | none => some (.ok (mkUntilOp nl none nr))
          | some ⟨none, none⟩ => some (.ok (mkUntilOp nl none nr))
          | some ⟨some t1, none⟩ =>
            if t1 = 0 then some (.ok (mkUntilOp nl none nr))
            else
              bindExc (mkTimeInterval (some 0) (some t1)) fun iv =>
                expandF n (mkGloballyOp (some iv) (mkUntilOp nl none nr))
          | some ⟨t1, some t2⟩ =>
            bindRes (expandF n (mkEventuallyOp (some ⟨t1, some t2⟩) nl)) fun z1 =>
              bindExc (mkTimeInterval t1 none) fun iv =>
                bindRes (expandF n (mkUntilOp nl (some iv) nr)) fun z2 =>
                  some (.ok (.AndOp z1 z2))

/-! Measure functions for the termination proof of `expandF`.  `fWeight` /
`uWeight` weigh an `EventuallyOp` / `UntilOp` interval by how much rewriting
its `expand_intervals` case still has to do, and `rimp` sums those weights
over the part of a tree that the rewriter actually recurses into (children
of `AndOp` contribute nothing: the inherited default returns `self` without
recursing). -/

/-- Rewriting weight of an `EventuallyOp` interval, by the source's cases:
unbounded 0, upper-bounded-from-0 1, positive lower bound 2. -/
def fWeight : Option TimeInterval → Nat
  | none => 0
  | some ⟨none, none⟩ => 0
  | some ⟨none, some _⟩ => 1
  | some ⟨some t, none⟩ => if t = 0 then 0 else 2
  | some ⟨some t, some _⟩ => if t = 0 then 1 else 2

/-- Rewriting weight of an `UntilOp` interval: unbounded 0, unbounded-end 3,
bounded-end 4. -/
def uWeight : Option TimeInterval → Nat
  | none => 0
  | some ⟨none, none⟩ => 0
  | some ⟨some t, none⟩ => if t = 0 then 0 else 3
  | some ⟨_, some _⟩ => 4

/-- Total rewriting weight of the reachable part of a tree. -/
def rimp : Expr → Nat
  | .Constant _ => 0
  | .Identifier _ => 0
  | .NotOp a => rimp a
  | .AndOp _ _ => 0
  | .OrOp l r => rimp l + rimp r
  | .EverywhereOp _ a => rimp a
  | .SomewhereOp _ a => rimp a
  | .EscapeOp _ a => rimp a
  | .ReachOp l _ r => rimp l + rimp r
  | .NextOp _ a => rimp a
  | .GloballyOp i a => fWeight i + 1 + rimp a
  | .EventuallyOp i a => fWeight i + rimp a
  | .UntilOp l i r => uWeight i + rimp l + rimp r

/-- Structural size of a tree. -/
def esize : Expr → Nat
  | .Constant _ => 1
  | .Identifier _ => 1
  | .NotOp a => esize a + 1
  | .AndOp l r => esize l + esize r + 1
  | .OrOp l r => esize l + esize r + 1
  | .EverywhereOp _ a => esize a + 1
  | .SomewhereOp _ a => esize a + 1
  | .EscapeOp _ a => esize a + 1
  | .ReachOp l _ r => esize l + esize r + 1
  | .NextOp _ a => esize a + 1
  | .GloballyOp _ a => esize a + 1
  | .EventuallyOp _ a => esize a + 1
  | .UntilOp l _ r => esize l + esize r + 1

theorem fWeight_collapse (i : Option TimeInterval) :
    fWeight (collapseTemporal i) = fWeight i := by
  rcases i with _ | ⟨s, e⟩
  · rfl
  · rcases s with _ | t <;> rcases e with _ | t2 <;>
      simp only [collapseTemporal, fWeight] <;>
      by_cases ht : t = 0 <;> simp [fWeight, ht]

theorem uWeight_collapse (i : Option TimeInterval) :
    uWeight (collapseTemporal i) = uWeight i := by
  rcases i with _ | ⟨s, e⟩
  · rfl
  · rcases s with _ | t <;> rcases e with _ | t2 <;>
      simp only [collapseTemporal, uWeight] <;>
      by_cases ht : t = 0 <;> simp [uWeight, ht]

theorem rimp_mkEventuallyOp (i : Option TimeInterval) (a : Expr) :
    rimp (mkEventuallyOp i a) = fWeight i + rimp a := by
  simp [mkEventuallyOp, rimp, fWeight_collapse]

theorem rimp_mkGloballyOp (i : Option TimeInterval) (a : Expr) :
    rimp (mkGloballyOp i a) = fWeight i + 1 + rimp a := by
  simp [mkGloballyOp, rimp, fWeight_collapse]

theorem rimp_mkUntilOp (l : Expr) (i : Option TimeInterval) (r : Expr) :
    rimp (mkUntilOp l i r) = uWeight i + rimp l + rimp r := by
  simp [mkUntilOp, rimp, uWeight_collapse]

theorem rimp_wrapNext (k : Nat) (a : Expr) : rimp (wrapNext k a) = rimp a := by
  induction k with
  | zero => rfl
  | succ k ih => simp [wrapNext, rimp, ih]

theorem rimp_orUnroll {a : Expr} (h : rimp a = 0) (k : Nat) :
    rimp (orUnroll a k) = 0 := by
  induction k with
  | zero => exact h
  | succ k ih => simp [orUnroll, rimp, ih, h]

theorem rimp_mkNextOp {s : Option Int} {a x : Expr}
    (h : mkNextOp s a = .ok x) : rimp x = rimp a := by
  rcases s with _ | t
  · simp only [mkNextOp] at h
    cases h
    rfl
  · simp only [mkNextOp] at h
    split at h
    · cases h
    · split at h <;> (cases h; rfl)

theorem bindRes_mono {x y : Option (Except String Expr)}
    {f g : Expr → Option (Except String Expr)}
    (hxy : ∀ r, x = some r → y = some r)
    (hfg : ∀ a r, f a = some r → g a = some r) :
    ∀ r, bindRes x f = some r → bindRes y g = some r := by
  intro r h
  rcases hx : x with _ | v
  · rw [hx] at h
    simp [bindRes] at h
  · rw [hx] at h
    rw [hxy _ hx]
    rcases v with s | a
    · exact h
    · simp only [bindRes] at h ⊢
      exact hfg _ _ h

theorem bindExc_mono {x : Except String α}
    {f g : α → Option (Except String Expr)}
    (hfg : ∀ a r, f a = some r → g a = some r) :
    ∀ r, bindExc x f = some r → bindExc x g = some r := by
  intro r h
  rcases x with s | a
  · exact h
  · exact hfg _ _ h

/-- More fuel never changes a result that was already reached. -/
theorem expandF_mono : ∀ {n m : Nat}, n ≤ m →
    ∀ {e : Expr} {r : Except String Expr},
      expandF n e = some r → expandF m e = some r := by
  intro n
  induction n with
  | zero =>
    intro m _ e r h
    simp [expandF] at h
  | succ n ih =>
    intro m hm e r h
    obtain ⟨m', rfl⟩ : ∃ m', m = m' + 1 := ⟨m - 1, by omega⟩
    have hm' : n ≤ m' := by omega
    cases e with
    | Constant b => exact h
    | Identifier s => exact h
    | AndOp l r => exact h
    | NotOp a =>
      exact bindRes_mono (fun _ => ih hm') (fun _ _ h => h) r h
    | OrOp l rr =>
      exact bindRes_mono (fun _ => ih hm')
        (fun _ => bindRes_mono (fun _ => ih hm') (fun _ _ h => h)) r h
    | EverywhereOp i a =>
      exact bindRes_mono (fun _ => ih hm') (fun _ _ h => h) r h
    | SomewhereOp i a =>
      exact bindRes_mono (fun _ => ih hm') (fun _ _ h => h) r h
    | EscapeOp i a =>
      exact bindRes_mono (fun _ => ih hm') (fun _ _ h => h) r h
    | ReachOp l i rr =>
      exact bindRes_mono (fun _ => ih hm')
        (fun _ => bindRes_mono (fun _ => ih hm') (fun _ _ h => h)) r h
    | NextOp steps a =>
      exact bindRes_mono (fun _ => ih hm') (fun _ _ h => h) r h
    | GloballyOp i a =>
      exact ih hm' h
    | EventuallyOp i a =>
      rcases i with _ | ⟨s, e⟩
      · exact bindRes_mono (fun _ => ih hm') (fun _ _ h => h) r h
      · rcases s with _ | t1 <;> rcases e with _ | t2
        · exact bindRes_mono (fun _ => ih hm') (fun _ _ h => h) r h
        · exact bindRes_mono (fun _ => ih hm') (fun _ _ h => h) r h
        · simp only [expandF] at h ⊢
          by_cases h0 : t1 = 0
          · rw [if_pos h0] at h ⊢
            exact bindRes_mono (fun _ => ih hm') (fun _ _ h => h) r h
          · rw [if_neg h0] at h ⊢
            by_cases hneg : t1 ≤ 0
            · rw [if_pos hneg] at h ⊢
              exact h
            · rw [if_neg hneg] at h ⊢
              exact bindExc_mono (fun _ _ => ih hm') r h
        · simp only [expandF] at h ⊢
          by_cases h0 : t1 = 0
          · rw [if_pos h0] at h ⊢
            exact bindRes_mono (fun _ => ih hm') (fun _ _ h => h) r h
          · rw [if_neg h0] at h ⊢
            by_cases hneg : t1 ≤ 0
            · rw [if_pos hneg] at h ⊢
              exact h
            · rw [if_neg hneg] at h ⊢
              exact bindExc_mono (fun _ => bindExc_mono (fun _ _ => ih hm')) r h
    | UntilOp lhs i rhs =>
      refine bindRes_mono (fun _ => ih hm')
        (fun nl => bindRes_mono (fun _ => ih hm') (fun nr r h => ?_)) r h
      rcases i with _ | ⟨s, e⟩
      · exact h
      · rcases s with _ | t1 <;> rcases e with _ | t2
        · exact h
        · exact bindRes_mono (fun _ => ih hm')
            (fun _ => bindExc_mono (fun _ =>
              bindRes_mono (fun _ => ih hm') (fun _ _ h => h))) r h
        · simp only at h ⊢
          by_cases h0 : t1 = 0
          · rw [if_pos h0] at h ⊢
            exact h
          · rw [if_neg h0] at h ⊢
            exact bindExc_mono (fun _ _ => ih hm') r h
        · exact bindRes_mono (fun _ => ih hm')
            (fun _ => bindExc_mono (fun _ =>
              bindRes_mono (fun _ => ih hm') (fun _ _ h => h))) r h

/-- Invariant carried by the termination proof: a successful expansion has
rewriting weight 0 on its reachable part. -/
def okInv (r : Except String Expr) : Prop := ∀ x, r = Except.ok x → rimp x = 0

theorem okInv_ok {v : Expr} (h : rimp v = 0) : okInv (.ok v) := by
  intro x hx
  cases hx
  exact h

theorem okInv_error {s : String} : okInv (.error s) :=
  fun _ hx => Except.noConfusion hx

theorem mkTimeInterval_ok {a b : Int} {iv : TimeInterval}
    (h : mkTimeInterval (some a) (some b) = .ok iv) : iv = ⟨some a, some b⟩ := by
  simp only [mkTimeInterval] at h
  split_ifs at h
  all_goals first
    | exact Except.noConfusion h
    | exact (Except.ok.inj h).symm

theorem mkTimeInterval_none_ok (s : Option Int) :
    mkTimeInterval s none = .ok ⟨s, none⟩ := by
  cases s <;> rfl

theorem fWeight_le (i : Option TimeInterval) : fWeight i ≤ 2 := by
  rcases i with _ | ⟨_ | t, _ | t2⟩
  all_goals simp only [fWeight]
  all_goals first
    | omega
    | (split <;> omega)

theorem uWeight_end_none_le (s : Option Int) : uWeight (some ⟨s, none⟩) ≤ 3 := by
  rcases s with _ | t
  · simp [uWeight]
  · simp only [uWeight]
    split <;> omega

/-- Auxiliary form of the termination theorem, by strong induction on the
lexicographic measure (reachable rewriting weight, structural size). -/
theorem expandF_totAux : ∀ (k s : Nat) (e : Expr), rimp e = k → esize e = s →
    ∃ n r, expandF n e = some r ∧ okInv r := by
  intro k
  induction k using Nat.strong_induction_on with
  | _ k ihk =>
    intro s
    induction s using Nat.strong_induction_on with
    | _ s ihs =>
      intro e hk hs
      subst hk
      subst hs
      have IH : ∀ e' : Expr, rimp e' < rimp e ∨ (rimp e' = rimp e ∧ esize e' < esize e) →
          ∃ n r, expandF n e' = some r ∧ okInv r := by
        intro e' h'
        rcases h' with h' | ⟨h1, h2⟩
        · exact ihk _ h' _ e' rfl rfl
        · exact ihs _ h2 e' h1 rfl
      clear ihk ihs
      cases e with
      | Constant b => exact ⟨1, .ok (.Constant b), rfl, okInv_ok rfl⟩
      | Identifier nm => exact ⟨1, .ok (.Identifier nm), rfl, okInv_ok rfl⟩
      | AndOp l r => exact ⟨1, .ok (.AndOp l r), rfl, okInv_ok rfl⟩
      | NotOp a =>
        obtain ⟨n, r, hr, hinv⟩ := IH a (by simp only [rimp, esize, true_and, and_true]; omega)
        rcases r with serr | a2
        · exact ⟨n + 1, .error serr, by simp [expandF, bindRes, hr], okInv_error⟩
        · have ha2 : rimp a2 = 0 := hinv a2 rfl
          by_cases hn : a2.isNotNode = true
          · exact ⟨n + 1, .ok a2, by simp [expandF, bindRes, hr, hn], okInv_ok ha2⟩
          · exact ⟨n + 1, .ok (.NotOp a2), by simp [expandF, bindRes, hr, hn],
              okInv_ok (by simpa [rimp] using ha2)⟩
      | OrOp l rr =>
        obtain ⟨n1, r1, h1, hi1⟩ := IH l (by simp only [rimp, esize, true_and, and_true]; omega)
        rcases r1 with serr | l2
        · exact ⟨n1 + 1, .error serr, by simp [expandF, bindRes, h1], okInv_error⟩
        · obtain ⟨n2, r2, h2, hi2⟩ := IH rr (by simp only [rimp, esize, true_and, and_true]; omega)
          have h1' := expandF_mono (show n1 ≤ n1 + n2 by omega) h1
          have h2' := expandF_mono (show n2 ≤ n1 + n2 by omega) h2
          rcases r2 with serr | r2v
          · exact ⟨n1 + n2 + 1, .error serr,
              by simp [expandF, bindRes, h1', h2'], okInv_error⟩
          · exact ⟨n1 + n2 + 1, .ok (.OrOp l2 r2v),
              by simp [expandF, bindRes, h1', h2'],
              okInv_ok (by simp [rimp, hi1 l2 rfl, hi2 r2v rfl])⟩
      | EverywhereOp i a =>
        obtain ⟨n, r, hr, hinv⟩ := IH a (by simp only [rimp, esize, true_and, and_true]; omega)
        rcases r with serr | a2
        · exact ⟨n + 1, .error serr, by simp [expandF, bindRes, hr], okInv_error⟩
        · exact ⟨n + 1, .ok (.EverywhereOp i a2), by simp [expandF, bindRes, hr],
            okInv_ok (by simpa [rimp] using hinv a2 rfl)⟩
      | SomewhereOp i a =>
        obtain ⟨n, r, hr, hinv⟩ := IH a (by simp only [rimp, esize, true_and, and_true]; omega)
        rcases r with serr | a2
        · exact ⟨n + 1, .error serr, by simp [expandF, bindRes, hr], okInv_error⟩
        · exact ⟨n + 1, .ok (.SomewhereOp i a2), by simp [expandF, bindRes, hr],
            okInv_ok (by simpa [rimp] using hinv a2 rfl)⟩
      | EscapeOp i a =>
        obtain ⟨n, r, hr, hinv⟩ := IH a (by simp only [rimp, esize, true_and, and_true]; omega)
        rcases r with serr | a2
        · exact ⟨n + 1, .error serr, by simp [expandF, bindRes, hr], okInv_error⟩
        · exact ⟨n + 1, .ok (.EscapeOp i a2), by simp [expandF, bindRes, hr],
            okInv_ok (by simpa [rimp] using hinv a2 rfl)⟩
      | ReachOp l i rr =>
        obtain ⟨n1, r1, h1, hi1⟩ := IH l (by simp only [rimp, esize, true_and, and_true]; omega)
        rcases r1 with serr | l2
        · exact ⟨n1 + 1, .error serr, by simp [expandF, bindRes, h1], okInv_error⟩
        · obtain ⟨n2, r2, h2, hi2⟩ := IH rr (by simp only [rimp, esize, true_and, and_true]; omega)
          have h1' := expandF_mono (show n1 ≤ n1 + n2 by omega) h1
          have h2' := expandF_mono (show n2 ≤ n1 + n2 by omega) h2
          rcases r2 with serr | r2v
          · exact ⟨n1 + n2 + 1, .error serr,
              by simp [expandF, bindRes, h1', h2'], okInv_error⟩
          · exact ⟨n1 + n2 + 1, .ok (.ReachOp l2 i r2v),
              by simp [expandF, bindRes, h1', h2'],
              okInv_ok (by simp [rimp, hi1 l2 rfl, hi2 r2v rfl])⟩
      | NextOp steps a =>
        obtain ⟨n, r, hr, hinv⟩ := IH a (by simp only [rimp, esize, true_and, and_true]; omega)
        rcases r with serr | a2
        · exact ⟨n + 1, .error serr, by simp [expandF, bindRes, hr], okInv_error⟩
        · rcases steps with _ | t
          · exact ⟨n + 1, .ok (.NextOp none a2), by simp [expandF, bindRes, hr],
              okInv_ok (by simpa [rimp] using hinv a2 rfl)⟩
          · exact ⟨n + 1, .ok (wrapNext t.toNat a2), by simp [expandF, bindRes, hr],
              okInv_ok (by simpa [rimp_wrapNext] using hinv a2 rfl)⟩
      | GloballyOp i a =>
        obtain ⟨n, r, hr, hinv⟩ := IH (.NotOp (mkEventuallyOp i (.NotOp a)))
          (Or.inl (by simp only [rimp, rimp_mkEventuallyOp, fWeight_collapse]; omega))
        exact ⟨n + 1, r, by simpa [expandF] using hr, hinv⟩
      | EventuallyOp i a =>
        rcases i with _ | ⟨s1, e2⟩
        · obtain ⟨n, r, hr, hinv⟩ := IH a (by simp only [rimp, esize, fWeight, true_and, and_true]; omega)
          rcases r with serr | a2
          · exact ⟨n + 1, .error serr, by simp [expandF, bindRes, hr], okInv_error⟩
          · exact ⟨n + 1, .ok (mkEventuallyOp none a2), by simp [expandF, bindRes, hr],
              okInv_ok (by simp [rimp_mkEventuallyOp, fWeight, hinv a2 rfl])⟩
        · rcases s1 with _ | t1 <;> rcases e2 with _ | t2
          · -- interval [None, None]
            obtain ⟨n, r, hr, hinv⟩ := IH a (by simp only [rimp, esize, fWeight, true_and, and_true]; omega)
            rcases r with serr | a2
            · exact ⟨n + 1, .error serr, by simp [expandF, bindRes, hr], okInv_error⟩
            · exact ⟨n + 1, .ok (mkEventuallyOp none a2), by simp [expandF, bindRes, hr],
                okInv_ok (by simp [rimp_mkEventuallyOp, fWeight, hinv a2 rfl])⟩
          · -- interval [None, t2]
            obtain ⟨n, r, hr, hinv⟩ := IH a (by simp only [rimp, esize, fWeight, true_and, and_true]; omega)
            rcases r with serr | a2
            · exact ⟨n + 1, .error serr, by simp [expandF, bindRes, hr], okInv_error⟩
            · exact ⟨n + 1, .ok (orUnroll a2 t2.toNat), by simp [expandF, bindRes, hr],
                okInv_ok (rimp_orUnroll (hinv a2 rfl) t2.toNat)⟩
          · -- interval [t1, None]
            by_cases h0 : t1 = 0
            · subst h0
              obtain ⟨n, r, hr, hinv⟩ := IH a
                (by simp only [rimp, esize, fWeight, true_and, and_true, reduceIte]; omega)
              rcases r with serr | a2
              · exact ⟨n + 1, .error serr, by simp [expandF, bindRes, hr], okInv_error⟩
              · exact ⟨n + 1, .ok (mkEventuallyOp none a2), by simp [expandF, bindRes, hr],
                  okInv_ok (by simp [rimp_mkEventuallyOp, fWeight, hinv a2 rfl])⟩
            · by_cases hneg : t1 ≤ 0
              · exact ⟨1, .error "AssertionError: t1 > 0",
                  by simp [expandF, h0, hneg], okInv_error⟩
              · rcases hmk : mkNextOp (some t1) (mkEventuallyOp none a) with serr | x
                · exact ⟨1, .error serr, by simp [expandF, h0, hneg, bindExc, hmk],
                    okInv_error⟩
                · have hx : rimp x = rimp a := by
                    rw [rimp_mkNextOp hmk, rimp_mkEventuallyOp]
                    simp [fWeight]
                  obtain ⟨n, r, hr, hinv⟩ := IH x
                    (Or.inl (by rw [hx]; simp only [rimp, fWeight, if_neg h0]; omega))
                  exact ⟨n + 1, r, by simp [expandF, h0, hneg, bindExc, hmk, hr], hinv⟩
          · -- interval [t1, t2]
            by_cases h0 : t1 = 0
            · subst h0
              obtain ⟨n, r, hr, hinv⟩ := IH a
                (Or.inl (by simp only [rimp, esize, fWeight, true_and, and_true,
                  reduceIte]; omega))
              rcases r with serr | a2
              · exact ⟨n + 1, .error serr, by simp [expandF, bindRes, hr], okInv_error⟩
              · exact ⟨n + 1, .ok (orUnroll a2 t2.toNat), by simp [expandF, bindRes, hr],
                  okInv_ok (rimp_orUnroll (hinv a2 rfl) t2.toNat)⟩
            · by_cases hneg : t1 ≤ 0
              · exact ⟨1, .error "AssertionError: t1 > 0",
                  by simp [expandF, h0, hneg], okInv_error⟩
              · rcases hti : mkTimeInterval (some 0) (some (t2 - t1)) with serr | iv
                · exact ⟨1, .error serr, by simp [expandF, h0, hneg, bindExc, hti],
                    okInv_error⟩
                · have hiv := mkTimeInterval_ok hti
                  subst hiv
                  rcases hmk : mkNextOp (some t1)
                      (mkEventuallyOp (some ⟨some 0, some (t2 - t1)⟩) a) with serr | x
                  · exact ⟨1, .error serr,
                      by simp [expandF, h0, hneg, bindExc, hti, hmk], okInv_error⟩
                  · have hx : rimp x = 1 + rimp a := by
                      rw [rimp_mkNextOp hmk, rimp_mkEventuallyOp]
                      simp [fWeight]
                    obtain ⟨n, r, hr, hinv⟩ := IH x
                      (Or.inl (by rw [hx]; simp only [rimp, fWeight, if_neg h0]; omega))
                    exact ⟨n + 1, r,
                      by simp [expandF, h0, hneg, bindExc, hti, hmk, hr], hinv⟩
      | UntilOp lhs i rhs =>
        obtain ⟨n1, r1, h1, hi1⟩ := IH lhs (by simp only [rimp, esize, true_and, and_true]; omega)
        rcases r1 with serr | nl
        · exact ⟨n1 + 1, .error serr, by simp [expandF, bindRes, h1], okInv_error⟩
        · obtain ⟨n2, r2, h2, hi2⟩ := IH rhs (by simp only [rimp, esize, true_and, and_true]; omega)
          rcases r2 with serr | nr
          · have h1' := expandF_mono (show n1 ≤ n1 + n2 by omega) h1
            have h2' := expandF_mono (show n2 ≤ n1 + n2 by omega) h2
            exact ⟨n1 + n2 + 1, .error serr,
              by simp [expandF, bindRes, h1', h2'], okInv_error⟩
          · have hnl : rimp nl = 0 := hi1 nl rfl
            have hnr : rimp nr = 0 := hi2 nr rfl
            rcases i with _ | ⟨s1, e2⟩
            · have h1' := expandF_mono (show n1 ≤ n1 + n2 by omega) h1
              have h2' := expandF_mono (show n2 ≤ n1 + n2 by omega) h2
              exact ⟨n1 + n2 + 1, .ok (mkUntilOp nl none nr),
                by simp [expandF, bindRes, h1', h2'],
                okInv_ok (by simp [rimp_mkUntilOp, uWeight, hnl, hnr])⟩
            · rcases s1 with _ | t1 <;> rcases e2 with _ | t2
              · -- interval [None, None]
                have h1' := expandF_mono (show n1 ≤ n1 + n2 by omega) h1
                have h2' := expandF_mono (show n2 ≤ n1 + n2 by omega) h2
                exact ⟨n1 + n2 + 1, .ok (mkUntilOp nl none nr),
                  by simp [expandF, bindRes, h1', h2'],
                  okInv_ok (by simp [rimp_mkUntilOp, uWeight, hnl, hnr])⟩
              · -- interval [None, t2]: bounded-end case
                obtain ⟨n3, r3, h3, hi3⟩ :=
                  IH (mkEventuallyOp (some ⟨none, some t2⟩) nl)
                    (Or.inl (by
                      rw [rimp_mkEventuallyOp]
                      simp only [rimp, uWeight, fWeight, hnl]
                      omega))
                rcases r3 with serr | z1v
                · have h1' := expandF_mono (show n1 ≤ n1 + n2 + n3 by omega) h1
                  have h2' := expandF_mono (show n2 ≤ n1 + n2 + n3 by omega) h2
                  have h3' := expandF_mono (show n3 ≤ n1 + n2 + n3 by omega) h3
                  exact ⟨n1 + n2 + n3 + 1, .error serr,
                    by simp [expandF, bindRes, h1', h2', h3'], okInv_error⟩
                · obtain ⟨n4, r4, h4, hi4⟩ :=
                    IH (mkUntilOp nl (some ⟨none, none⟩) nr)
                      (Or.inl (by
                        rw [rimp_mkUntilOp]
                        simp only [rimp, uWeight, hnl, hnr]
                        omega))
                  have h1' := expandF_mono (show n1 ≤ n1 + n2 + n3 + n4 by omega) h1
                  have h2' := expandF_mono (show n2 ≤ n1 + n2 + n3 + n4 by omega) h2
                  have h3' := expandF_mono (show n3 ≤ n1 + n2 + n3 + n4 by omega) h3
                  have h4' := expandF_mono (show n4 ≤ n1 + n2 + n3 + n4 by omega) h4
                  rcases r4 with serr | z2v
                  · exact ⟨n1 + n2 + n3 + n4 + 1, .error serr,
                      by simp [expandF, bindRes, bindExc, mkTimeInterval_none_ok,
                        h1', h2', h3', h4'], okInv_error⟩
                  · exact ⟨n1 + n2 + n3 + n4 + 1, .ok (.AndOp z1v z2v),
                      by simp [expandF, bindRes, bindExc, mkTimeInterval_none_ok,
                        h1', h2', h3', h4'], okInv_ok rfl⟩
              · -- interval [t1, None]
                by_cases h0 : t1 = 0
                · subst h0
                  have h1' := expandF_mono (show n1 ≤ n1 + n2 by omega) h1
                  have h2' := expandF_mono (show n2 ≤ n1 + n2 by omega) h2
                  exact ⟨n1 + n2 + 1, .ok (mkUntilOp nl none nr),
                    by simp [expandF, bindRes, h1', h2'],
                    okInv_ok (by simp [rimp_mkUntilOp, uWeight, hnl, hnr])⟩
                · rcases hti : mkTimeInterval (some 0) (some t1) with serr | iv
                  · have h1' := expandF_mono (show n1 ≤ n1 + n2 by omega) h1
                    have h2' := expandF_mono (show n2 ≤ n1 + n2 by omega) h2
                    exact ⟨n1 + n2 + 1, .error serr,
                      by simp [expandF, bindRes, h0, bindExc, hti, h1', h2'],
                      okInv_error⟩
                  · have hiv := mkTimeInterval_ok hti
                    subst hiv
                    obtain ⟨n3, r3, h3, hi3⟩ :=
                      IH (mkGloballyOp (some ⟨some 0, some t1⟩) (mkUntilOp nl none nr))
                        (Or.inl (by
                          rw [rimp_mkGloballyOp, rimp_mkUntilOp]
                          simp only [rimp, uWeight, fWeight, hnl, hnr, if_neg h0,
                            reduceIte]
                          omega))
                    have h1' := expandF_mono (show n1 ≤ n1 + n2 + n3 by omega) h1
                    have h2' := expandF_mono (show n2 ≤ n1 + n2 + n3 by omega) h2
                    have h3' := expandF_mono (show n3 ≤ n1 + n2 + n3 by omega) h3
                    exact ⟨n1 + n2 + n3 + 1, r3,
                      by simp [expandF, bindRes, h0, bindExc, hti, h1', h2', h3'], hi3⟩
              · -- interval [t1, t2]: bounded-end case
                obtain ⟨n3, r3, h3, hi3⟩ :=
                  IH (mkEventuallyOp (some ⟨some t1, some t2⟩) nl)
                    (Or.inl (by
                      rw [rimp_mkEventuallyOp]
                      have := fWeight_le (some ⟨some t1, some t2⟩)
                      simp only [rimp, uWeight, hnl]
                      omega))
                rcases r3 with serr | z1v
                · have h1' := expandF_mono (show n1 ≤ n1 + n2 + n3 by omega) h1
                  have h2' := expandF_mono (show n2 ≤ n1 + n2 + n3 by omega) h2
                  have h3' := expandF_mono (show n3 ≤ n1 + n2 + n3 by omega) h3
                  exact ⟨n1 + n2 + n3 + 1, .error serr,
                    by simp [expandF, bindRes, h1', h2', h3'], okInv_error⟩
                · obtain ⟨n4, r4, h4, hi4⟩ :=
                    IH (mkUntilOp nl (some ⟨some t1, none⟩) nr)
                      (Or.inl (by
                        rw [rimp_mkUntilOp]
                        simp only [rimp, uWeight, hnl, hnr]
                        split <;> omega))
                  have h1' := expandF_mono (show n1 ≤ n1 + n2 + n3 + n4 by omega) h1
                  have h2' := expandF_mono (show n2 ≤ n1 + n2 + n3 + n4 by omega) h2
                  have h3' := expandF_mono (show n3 ≤ n1 + n2 + n3 + n4 by omega) h3
                  have h4' := expandF_mono (show n4 ≤ n1 + n2 + n3 + n4 by omega) h4
                  rcases r4 with serr | z2v
                  · exact ⟨n1 + n2 + n3 + n4 + 1, .error serr,
                      by simp [expandF, bindRes, bindExc, mkTimeInterval_none_ok,
                        h1', h2', h3', h4'], okInv_error⟩
                  · exact ⟨n1 + n2 + n3 + n4 + 1, .ok (.AndOp z1v z2v),
                      by simp [expandF, bindRes, bindExc, mkTimeInterval_none_ok,
                        h1', h2', h3', h4'], okInv_ok rfl⟩

/-- Termination: `expand_intervals` needs only finitely much fuel on every input. -/
theorem expandF_tot (e : Expr) : ∃ n r, expandF n e = some r ∧ okInv r :=
  expandF_totAux (rimp e) (esize e) e rfl rfl

theorem expandF_isSome (e : Expr) : ∃ n, (expandF n e).isSome := by
  obtain ⟨n, r, h, _⟩ := expandF_tot e
  exact ⟨n, by simp [h]⟩

/-- The total `expand_intervals : Expr -> Expr` (raising modelled as
`Except.error`): run `expandF` at the least sufficient fuel, which exists by
`expandF_isSome`. -/
def expandIntervals (e : Expr) : Except String Expr :=
  (expandF (Nat.find (expandF_isSome e)) e).get (Nat.find_spec (expandF_isSome e))

/-- Evaluation rule for `expandIntervals`: any fuel that produces a result
produces the result. -/
theorem expandIntervals_eq (n : Nat) {e : Expr} {r : Except String Expr}
    (h : expandF n e = some r) : expandIntervals e = r := by
  obtain ⟨r2, hr2⟩ := Option.isSome_iff_exists.mp (Nat.find_spec (expandF_isSome e))
  have h3 : some (expandIntervals e) = expandF (Nat.find (expandF_isSome e)) e :=
    Option.some_get _
  rw [hr2] at h3
  have h1 : expandF (n + Nat.find (expandF_isSome e)) e = some r :=
    expandF_mono (by omega) h
  have h2 : expandF (n + Nat.find (expandF_isSome e)) e = some r2 :=
    expandF_mono (by omega) hr2
  rw [h1] at h2
  rw [Option.some.inj h3, ← Option.some.inj h2]

/-! Claim theorems. -/

/-- C1: the claim that every `expand_intervals` result is free of
`GloballyOp` (and of bounded `EventuallyOp`/`UntilOp`) fails on the code:
`AndOp` inherits the default `expand_intervals`, which returns `self`
without recursing, so `AndOp(GloballyOp(None, p), q)` expands to itself and
still contains a `GloballyOp` node — contradicting the method's own
docstring ("Expand the formula to eliminate intervals and Gloablly
operators").  This theorem evaluates the code at that failing input. -/
theorem C1_and_keeps_globallyOp :
    expandIntervals (.AndOp (.GloballyOp none (.Identifier "p")) (.Identifier "q")) =
      .ok (.AndOp (.GloballyOp none (.Identifier "p")) (.Identifier "q")) ∧
    hasGloballyOp (.AndOp (.GloballyOp none (.Identifier "p")) (.Identifier "q")) = true :=
  ⟨expandIntervals_eq 1 rfl, rfl⟩

/-- C2: the claim says `EventuallyOp(TimeInterval(0,2), p).expand_intervals()`
is `p ∨ X p ∨ X X p` (strictly increasing `NextOp` nesting).  The code's
loop appends the same single-step disjunct `NextOp(None, arg)` at every
iteration, producing `p ∨ X p ∨ X p` instead, which differs from the
claimed formula: a code bug against the intended `F[0,t2]` semantics. -/
theorem C2_eventually_unroll_repeats_single_next :
    expandIntervals (.EventuallyOp (some ⟨some 0, some 2⟩) (.Identifier "p")) =
      .ok (.OrOp (.OrOp (.Identifier "p") (.NextOp none (.Identifier "p")))
        (.NextOp none (.Identifier "p"))) ∧
    (Expr.OrOp (.OrOp (.Identifier "p") (.NextOp none (.Identifier "p")))
        (.NextOp none (.Identifier "p"))) ≠
      (Expr.OrOp (.OrOp (.Identifier "p") (.NextOp none (.Identifier "p")))
        (.NextOp none (.NextOp none (.Identifier "p")))) :=
  ⟨expandIntervals_eq 2 rfl, by decide⟩

/-- C3: the claim that `AndOp(l, r).expand_intervals()` equals
`AndOp(l.expand_intervals(), r.expand_intervals())` fails: `AndOp` has no
override, so the default returns `self` unchanged.  At
`l = GloballyOp(None, p)`, `r = p`, the code returns the input unchanged
while the claimed result would expand the left conjunct. -/
theorem C3_andOp_does_not_recurse :
    expandIntervals (.AndOp (.GloballyOp none (.Identifier "p")) (.Identifier "p")) =
      .ok (.AndOp (.GloballyOp none (.Identifier "p")) (.Identifier "p")) ∧
    expandIntervals (.GloballyOp none (.Identifier "p")) =
      .ok (.NotOp (.EventuallyOp none (.NotOp (.Identifier "p")))) ∧
    (Expr.AndOp (.GloballyOp none (.Identifier "p")) (.Identifier "p")) ≠
      (Expr.AndOp (.NotOp (.EventuallyOp none (.NotOp (.Identifier "p"))))
        (.Identifier "p")) :=
  ⟨expandIntervals_eq 1 rfl, expandIntervals_eq 5 rfl, by decide⟩

/-- C4: `expand_intervals` terminates on every input formula: the
fuel-guarded embedding `expandF` reaches a result (normal or raised) with
some finite fuel, and that result is the value of the total function
`expandIntervals`. -/
theorem C4_expand_terminates (e : Expr) :
    ∃ n r, expandF n e = some r ∧ expandIntervals e = r := by
  obtain ⟨n, r, h, _⟩ := expandF_tot e
  exact ⟨n, r, h, expandIntervals_eq n h⟩

/-- C5: the claim says iterating a `TimeInterval` whose end is `None` never
terminates; but for `TimeInterval(None, None)` (end is `None`, and
`is_unbounded()` is true) the code's match falls through to `iter([])`, an
iterator that is exhausted immediately — contradicting the method's own
docstring.  This theorem evaluates the code at that failing input. -/
theorem C5_unbounded_both_iterates_empty :
    TimeInterval.is_unbounded ⟨none, none⟩ = true ∧
    ∀ n : Nat, TimeInterval.iterAt ⟨none, none⟩ n = none :=
  ⟨rfl, fun _ => rfl⟩

/-- C6: for atomic `p` (a `Constant` or an `Identifier`),
`NotOp(NotOp(p)).expand_intervals()` is `NotOp(p)`, not `p`: the inner
`NotOp` expands to `NotOp(p)`, and the outer rule returns that `NotOp`
unchanged — one collapsed layer, not full double-negation elimination. -/
theorem C6_double_negation_atomic (p : Expr) (h : isAtomic p = true) :
    expandIntervals (.NotOp (.NotOp p)) = .ok (.NotOp p) := by
  cases p with
  | Constant b => exact expandIntervals_eq 3 rfl
  | Identifier s => exact expandIntervals_eq 3 rfl
  | NotOp a => simp [isAtomic] at h
  | AndOp l r => simp [isAtomic] at h
  | OrOp l r => simp [isAtomic] at h
  | EverywhereOp i a => simp [isAtomic] at h
  | SomewhereOp i a => simp [isAtomic] at h
  | EscapeOp i a => simp [isAtomic] at h
  | ReachOp l i r => simp [isAtomic] at h
  | NextOp s a => simp [isAtomic] at h
  | GloballyOp i a => simp [isAtomic] at h
  | EventuallyOp i a => simp [isAtomic] at h
  | UntilOp l i r => simp [isAtomic] at h

/-- Witness for C6 at the atomic proposition `p`. -/
theorem C6_double_negation_atomic_witness :
    isAtomic (.Identifier "p") = true ∧
    expandIntervals (.NotOp (.NotOp (.Identifier "p"))) = .ok (.NotOp (.Identifier "p")) :=
  ⟨rfl, C6_double_negation_atomic (.Identifier "p") rfl⟩

/-- C7: constructing `TimeInterval(t1, t2)` with both bounds present fails
(with a `ValueError`) whenever `t1 = t2`, `t1 > t2`, or either bound is
negative; no partially-built value is returned (the model returns
`Except.error` and no `TimeInterval`). -/
theorem C7_timeInterval_rejects_degenerate (t1 t2 : Int)
    (h : t1 = t2 ∨ t1 > t2 ∨ t1 < 0 ∨ t2 < 0) :
    ∃ msg, mkTimeInterval (some t1) (some t2) = .error msg := by
  simp only [mkTimeInterval]
  split_ifs with ha hb hc
  · exact ⟨_, rfl⟩
  · exact ⟨_, rfl⟩
  · exact ⟨_, rfl⟩
  · exact absurd h (by omega)

/-- Witness for C7 at the point interval `[1, 1]`. -/
theorem C7_timeInterval_rejects_degenerate_witness :
    ((1 : Int) = 1 ∨ (1 : Int) > 1 ∨ (1 : Int) < 0 ∨ (1 : Int) < 0) ∧
    ∃ msg, mkTimeInterval (some 1) (some 1) = .error msg :=
  ⟨Or.inl rfl, C7_timeInterval_rejects_degenerate 1 1 (Or.inl rfl)⟩

/-- C8: `DistanceInterval(None, None)` constructs with `start` normalized to
`0.0` and `end` to `+inf`, while `DistanceInterval(1.0, 1.0)` (equal
bounds) and `DistanceInterval(-1.0, 2.0)` (negative bound) both fail at
construction. -/
theorem C8_distanceInterval_normalize_and_reject :
    mkDistanceInterval none none = .ok ⟨.fin 0, .inf⟩ ∧
    (∃ m, mkDistanceInterval (some (.fin 1)) (some (.fin 1)) = .error m) ∧
    (∃ m, mkDistanceInterval (some (.fin (-1))) (some (.fin 2)) = .error m) :=
  ⟨rfl, ⟨_, rfl⟩, ⟨_, rfl⟩⟩

/-- C9: for every expression `p`, `NextOp(1, p)` constructs the same value
as `NextOp(None, p)` (steps `1` is normalized to the `None` single-step
marker), while `NextOp(0, p)` and `NextOp(-1, p)` fail at construction. -/
theorem C9_nextOp_normalization (p : Expr) :
    mkNextOp (some 1) p = .ok (.NextOp none p) ∧
    mkNextOp none p = .ok (.NextOp none p) ∧
    (∃ m, mkNextOp (some 0) p = .error m) ∧
    (∃ m, mkNextOp (some (-1)) p = .error m) :=
  ⟨rfl, rfl, ⟨_, rfl⟩, ⟨_, rfl⟩⟩

/-- C10: when exactly one bound of a `TimeInterval` is `None`, construction
performs no validation on the other bound: `TimeInterval(t, None)` and
`TimeInterval(None, t)` construct for every integer `t`, in particular for
`t = -5`. -/
theorem C10_halfOpen_skips_validation (t : Int) :
    mkTimeInterval (some t) none = .ok ⟨some t, none⟩ ∧
    mkTimeInterval none (some t) = .ok ⟨none, some t⟩ ∧
    mkTimeInterval (some (-5)) none = .ok ⟨some (-5), none⟩ ∧
    mkTimeInterval none (some (-5)) = .ok ⟨none, some (-5)⟩ :=
  ⟨rfl, rfl, rfl, rfl⟩

end Strel
